import Mathlib

/-!
Verification development for `src/heading_nmea_udp_sender.c` (Beaglebone Blue
heading NMEA UDP sender).

Shallow embedding conventions:
* C `double` values are modelled as exact rationals `ℚ` (the arithmetic the
  program performs on headings is addition, subtraction, negation and
  comparison, which are exact on the rationals).
* The transcendental computation `-atan2(-yField, xField)*(180/M_PI)` of line
  109 is modelled over `ℝ` using `Complex.arg` (C `atan2(y, x)` is the
  argument of the complex number `x + y*i`, with values in `(-π, π]`).
* C character buffers are modelled as byte lists (`List ℕ`); the bytes of the
  `char[14]` buffer `messageInner` that `sprintf` does not assign are supplied
  by an arbitrary function `junk : ℕ → ℕ` standing for the pre-existing stack
  contents.
* The main loop is modelled as a trace of events (mag read, `sendto` calls,
  sleep, power-off, socket close); the magnetometer-to-heading function is a
  parameter of the loop model and is related to the C expression separately.
-/

namespace HeadingSender

/-- `#define HEADING_OFFSET 90.0` (line 33). -/
def HEADING_OFFSET : ℚ := 90

/-- `#define BOARD_INVERTED false` (line 36). -/
def BOARD_INVERTED : Bool := false

/-- `#define LOCAL_MAGNETIC_DECLINATION 0.1` (line 41). -/
def LOCAL_MAGNETIC_DECLINATION : ℚ := 1/10

/-- Lines 119-121: `while (heading < 0.0) { heading = heading + 360.0; }`. -/
def addLoop (h : ℚ) : ℚ :=
  if hlt : h < 0 then addLoop (h + 360) else h
termination_by (⌈(-h) / 360⌉).toNat
decreasing_by
  have h360 : (0:ℚ) < 360 := by norm_num
  have hstep : (-(h + 360)) / 360 = (-h) / 360 - 1 := by ring
  have hpos : (0:ℚ) < (-h) / 360 := div_pos (by linarith) h360
  have hceil : 0 < ⌈(-h) / 360⌉ := Int.ceil_pos.mpr hpos
  have : ⌈(-(h + 360)) / 360⌉ = ⌈(-h) / 360⌉ - 1 := by
    rw [hstep]
    exact_mod_cast Int.ceil_sub_int ((-h) / 360) 1
  omega

/-- Lines 122-124: `while (heading >= 360.0) { heading = heading - 360.0; }`. -/
def subLoop (h : ℚ) : ℚ :=
  if hge : 360 ≤ h then subLoop (h - 360) else h
termination_by (⌊h / 360⌋).toNat
decreasing_by
  have h360 : (0:ℚ) < 360 := by norm_num
  have hstep : (h - 360) / 360 = h / 360 - 1 := by ring
  have hone : (1:ℚ) ≤ h / 360 := by
    rw [le_div_iff₀ h360]; linarith
  have hfl : 0 < ⌊h / 360⌋ := by
    have := Int.le_floor.mpr (by exact_mod_cast hone : ((1:ℤ):ℚ) ≤ h / 360)
    omega
  have : ⌊(h - 360) / 360⌋ = ⌊h / 360⌋ - 1 := by
    rw [hstep]
    exact_mod_cast Int.floor_sub_int (h / 360) 1
  omega

/-- Lines 118-124: the full wraparound reduction into `[0, 360)`. -/
def normalize (h : ℚ) : ℚ := subLoop (addLoop h)

/-- Lines 112-116: polarity inversion, mounting offset, magnetic declination,
applied before the wraparound reduction. -/
def preCorrect (h : ℚ) (inverted : Bool) (offset decl : ℚ) : ℚ :=
  (if inverted then -h else h) + offset + decl

/-- Lines 112-124: the whole heading-correction chain of the loop body. -/
def correct (h : ℚ) (inverted : Bool) (offset decl : ℚ) : ℚ :=
  normalize (preCorrect h inverted offset decl)

theorem addLoop_of_nonneg (h : ℚ) (h0 : 0 ≤ h) : addLoop h = h := by
  rw [addLoop]
  simp [not_lt.mpr h0]

theorem subLoop_of_lt (h : ℚ) (hl : h < 360) : subLoop h = h := by
  rw [subLoop]
  simp [not_le.mpr hl]

theorem addLoop_nonneg (h : ℚ) : 0 ≤ addLoop h := by
  induction h using addLoop.induct with
  | case1 h hlt ih => rw [addLoop]; simp only [dif_pos hlt]; exact ih
  | case2 h hlt => rw [addLoop]; simp only [dif_neg hlt]; exact not_lt.mp hlt

theorem addLoop_congr (h : ℚ) : ∃ k : ℤ, addLoop h = h + 360 * k := by
  induction h using addLoop.induct with
  | case1 h hlt ih =>
    obtain ⟨k, hk⟩ := ih
    refine ⟨k + 1, ?_⟩
    rw [addLoop]
    simp only [dif_pos hlt]
    rw [hk]; push_cast; ring
  | case2 h hlt => exact ⟨0, by rw [addLoop]; simp only [dif_neg hlt]; push_cast; ring⟩

theorem addLoop_lt (h : ℚ) (hl : h < 360) : addLoop h < 360 := by
  induction h using addLoop.induct with
  | case1 h hlt ih =>
    rw [addLoop]
    simp only [dif_pos hlt]
    exact ih (by linarith)
  | case2 h hlt => rw [addLoop]; simp only [dif_neg hlt]; exact hl

theorem subLoop_lt (h : ℚ) : subLoop h < 360 := by
  induction h using subLoop.induct with
  | case1 h hge ih => rw [subLoop]; simp only [dif_pos hge]; exact ih
  | case2 h hge => rw [subLoop]; simp only [dif_neg hge]; exact not_le.mp hge

theorem subLoop_congr (h : ℚ) : ∃ k : ℤ, subLoop h = h + 360 * k := by
  induction h using subLoop.induct with
  | case1 h hge ih =>
    obtain ⟨k, hk⟩ := ih
    refine ⟨k - 1, ?_⟩
    rw [subLoop]
    simp only [dif_pos hge]
    rw [hk]; push_cast; ring
  | case2 h hge => exact ⟨0, by rw [subLoop]; simp only [dif_neg hge]; push_cast; ring⟩

theorem subLoop_nonneg (h : ℚ) (h0 : 0 ≤ h) : 0 ≤ subLoop h := by
  induction h using subLoop.induct with
  | case1 h hge ih =>
    rw [subLoop]
    simp only [dif_pos hge]
    exact ih (by linarith)
  | case2 h hge => rw [subLoop]; simp only [dif_neg hge]; exact h0

theorem normalize_nonneg (h : ℚ) : 0 ≤ normalize h :=
  subLoop_nonneg _ (addLoop_nonneg h)

theorem normalize_lt (h : ℚ) : normalize h < 360 := subLoop_lt _

theorem normalize_congr (h : ℚ) : ∃ k : ℤ, normalize h = h + 360 * k := by
  obtain ⟨k₁, hk₁⟩ := addLoop_congr h
  obtain ⟨k₂, hk₂⟩ := subLoop_congr (addLoop h)
  exact ⟨k₁ + k₂, by rw [normalize, hk₂, hk₁]; push_cast; ring⟩

theorem normalize_of_mem (h : ℚ) (h0 : 0 ≤ h) (hl : h < 360) : normalize h = h := by
  rw [normalize, addLoop_of_nonneg h h0, subLoop_of_lt h hl]

theorem normalize_unique (h y : ℚ) (h0 : 0 ≤ y) (hl : y < 360)
    (hc : ∃ k : ℤ, y = h + 360 * k) : y = normalize h := by
  obtain ⟨k, hk⟩ := hc
  obtain ⟨k', hk'⟩ := normalize_congr h
  have hdiff : y - normalize h = 360 * ((k : ℚ) - (k' : ℚ)) := by
    rw [hk, hk']; ring
  have hn0 := normalize_nonneg h
  have hnl := normalize_lt h
  have hlo : (-1 : ℚ) < (k : ℚ) - (k' : ℚ) := by nlinarith
  have hhi : (k : ℚ) - (k' : ℚ) < 1 := by nlinarith
  have hlo' : (-1 : ℤ) < k - k' := by exact_mod_cast hlo
  have hhi' : k - k' < (1 : ℤ) := by exact_mod_cast hhi
  have hkk : k = k' := by omega
  rw [hk, hk', hkk]

/-! ### Decimal and hexadecimal rendering

`sprintf` conversions are embedded digit by digit.  `digitsAux` computes the
base-`b` digits of a natural number, most significant first, with an explicit
fuel argument (`fuel > n` always suffices) so that it is structurally
recursive and evaluates inside the kernel. -/

def digitsAux (b : ℕ) : ℕ → ℕ → List ℕ
  | 0, _ => []
  | fuel+1, n => if n < b then [n] else digitsAux b fuel (n / b) ++ [n % b]

/-- Base-`b` digits of `n`, most significant first. -/
def digitsOf (b n : ℕ) : List ℕ := digitsAux b (n + 1) n

/-- ASCII byte of a decimal digit. -/
def digitByte (d : ℕ) : ℕ := 48 + d

/-- ASCII byte of an uppercase hexadecimal digit (used by `%X`). -/
def hexDigitByte (d : ℕ) : ℕ := if d < 10 then 48 + d else 55 + d

/-- Decimal rendering of a natural number, as ASCII bytes. -/
def natBytes (n : ℕ) : List ℕ := (digitsOf 10 n).map digitByte

/-- Uppercase hexadecimal rendering of a natural number, as ASCII bytes. -/
def hexBytes (n : ℕ) : List ℕ := (digitsOf 16 n).map hexDigitByte

/-- Bytes of a string literal of the C source. -/
def strBytes (s : String) : List ℕ := s.toList.map Char.toNat

/-- `%03.1f` applied to a nonnegative double (line 128): one decimal digit —
the value is rounded to `n` tenths — then the text `<int part>.<tenths>`,
zero-padded on the left to a minimum TOTAL width of 3 characters.  (The
sentence only ever formats the corrected heading, which is in `[0, 360)`, so
the negative-number branch of `%f` is not modelled.) -/
def fmt031 (h : ℚ) : List ℕ :=
  let n : ℕ := (⌊h * 10 + 1/2⌋).toNat
  List.leftpad 3 48 (natBytes (n / 10) ++ 46 :: natBytes (n % 10))

/-- `%02X` (line 138): uppercase hex, zero-padded to a minimum width of 2. -/
def hex2 (n : ℕ) : List ℕ := List.leftpad 2 48 (hexBytes n)

/-- Line 128: `sprintf(messageInner, "HEHDT,%03.1f,T", heading)` — the bytes
of the written string (terminating NUL excluded). -/
def innerBytes (h : ℚ) : List ℕ := strBytes "HEHDT," ++ fmt031 h ++ strBytes ",T"

/-- The contents of a C `char` buffer after `sprintf` wrote the string `s`
into it: the bytes of `s`, then the terminating NUL, then whatever bytes
(`junk`) the buffer already held at the remaining indices. -/
def bufAt (s : List ℕ) (junk : ℕ → ℕ) (i : ℕ) : ℕ :=
  if hi : i < s.length then s.get ⟨i, hi⟩ else if i = s.length then 0 else junk i

/-- Lines 131-135: `crc = 0; for (i = 0; i < 14; i++) crc ^= messageInner[i];`
— the XOR of the first 14 bytes of the `char[14]` buffer `messageInner`,
whatever the length of the string actually written into it. -/
def crcOf (h : ℚ) (junk : ℕ → ℕ) : ℕ :=
  (List.range 14).foldl (fun c i => c ^^^ bufAt (innerBytes h) junk i) 0

/-- Running XOR of a byte list (the NMEA checksum of an inner field). -/
def xorBytes (l : List ℕ) : ℕ := l.foldl (fun c b => c ^^^ b) 0

/-- Line 138: `sprintf(message, "$%s*%02X\r\n", messageInner, crc)` — `%s`
copies the inner string up to its NUL. -/
def messageBytes (h : ℚ) (junk : ℕ → ℕ) : List ℕ :=
  36 :: innerBytes h ++ 42 :: hex2 (crcOf h junk) ++ [13, 10]

/-- Rounding a value given in exact tenths is the identity on the tenths
count; this lets concrete sentences be evaluated by the kernel. -/
theorem floor_tenths (n : ℕ) : (⌊((n:ℚ)/10) * 10 + 1/2⌋).toNat = n := by
  have h1 : ((n:ℚ)/10) * 10 + 1/2 = (n:ℚ) + 1/2 := by
    rw [div_mul_cancel₀]
    norm_num
  have h2 : ⌊(n:ℚ) + 1/2⌋ = (n:ℤ) := by
    rw [Int.floor_eq_iff]
    constructor
    · push_cast; linarith
    · push_cast; linarith
  rw [h1, h2, Int.toNat_natCast]

theorem fmt031_tenths (n : ℕ) :
    fmt031 ((n:ℚ)/10) = List.leftpad 3 48 (natBytes (n / 10) ++ 46 :: natBytes (n % 10)) := by
  simp only [fmt031, floor_tenths]

example : fmt031 ((345:ℕ)/10 : ℚ) = strBytes "34.5" := by rw [fmt031_tenths]; decide
example : fmt031 ((2345:ℕ)/10 : ℚ) = strBytes "234.5" := by rw [fmt031_tenths]; decide
example : fmt031 ((5:ℕ)/10 : ℚ) = strBytes "0.5" := by rw [fmt031_tenths]; decide
example : innerBytes ((345:ℕ)/10 : ℚ) = strBytes "HEHDT,34.5,T" := by
  simp only [innerBytes, fmt031_tenths]; decide
example : crcOf ((2345:ℕ)/10 : ℚ) (fun _ => 0) = xorBytes (strBytes "HEHDT,234.5,T") := by
  simp only [crcOf, innerBytes, fmt031_tenths]; decide
example : crcOf ((345:ℕ)/10 : ℚ) (fun i => if i = 13 then 1 else 0) ≠ xorBytes (strBytes "HEHDT,34.5,T") := by
  simp only [crcOf, innerBytes, fmt031_tenths]; decide
example : messageBytes ((2345:ℕ)/10 : ℚ) (fun _ => 0) = strBytes "$HEHDT,234.5,T*2F\r\n" := by
  simp only [messageBytes, crcOf, innerBytes, fmt031_tenths]; decide

/-! ### Digit lemmas -/

theorem digitsAux_fuel (b : ℕ) (hb : 2 ≤ b) :
    ∀ f₁ f₂ n, n < f₁ → n < f₂ → digitsAux b f₁ n = digitsAux b f₂ n := by
  intro f₁
  induction f₁ with
  | zero => intro f₂ n h1; omega
  | succ f ih =>
    intro f₂ n h1 h2
    match f₂, h2 with
    | f₂ + 1, h2 =>
      simp only [digitsAux]
      by_cases hn : n < b
      · simp [hn]
      · have hdiv : n / b < n := Nat.div_lt_self (by omega) hb
        simp only [if_neg hn]
        rw [ih f₂ (n / b) (by omega) (by omega)]

theorem digitsOf_small (b n : ℕ) (h : n < b) : digitsOf b n = [n] := by
  simp [digitsOf, digitsAux, h]

theorem digitsOf_step (b n : ℕ) (hb : 2 ≤ b) (h : b ≤ n) :
    digitsOf b n = digitsOf b (n / b) ++ [n % b] := by
  have hdiv : n / b < n := Nat.div_lt_self (by omega) hb
  rw [digitsOf, digitsOf]
  conv_lhs => rw [digitsAux]
  rw [if_neg (not_lt.mpr h), digitsAux_fuel b hb n (n / b + 1) (n / b) (by omega) (by omega)]

theorem digitsOf_len1 (b n : ℕ) (h : n < b) : (digitsOf b n).length = 1 := by
  rw [digitsOf_small b n h]; rfl

theorem digitsOf_len2 (b n : ℕ) (hb : 2 ≤ b) (h1 : b ≤ n) (h2 : n < b * b) :
    (digitsOf b n).length = 2 := by
  rw [digitsOf_step b n hb h1, List.length_append,
    digitsOf_len1 b (n / b) (Nat.div_lt_of_lt_mul h2)]
  rfl

theorem digitsOf_len3 (b n : ℕ) (hb : 2 ≤ b) (h1 : b * b ≤ n) (h2 : n < b * b * b) :
    (digitsOf b n).length = 3 := by
  have hbn : b ≤ n := le_trans (Nat.le_mul_of_pos_left b (by omega)) h1
  rw [digitsOf_step b n hb hbn, List.length_append,
    digitsOf_len2 b (n / b) hb (Nat.le_div_iff_mul_le (by omega) |>.mpr h1)
      (Nat.div_lt_of_lt_mul (mul_assoc b b b ▸ h2))]
  rfl

theorem digitsOf_lt (b : ℕ) (hb : 2 ≤ b) : ∀ n, ∀ d ∈ digitsOf b n, d < b := by
  intro n
  induction n using Nat.strong_induction_on with
  | _ n ih =>
    intro d hd
    by_cases h : n < b
    · rw [digitsOf_small b n h] at hd
      simp at hd
      omega
    · rw [digitsOf_step b n hb (not_lt.mp h)] at hd
      rcases List.mem_append.mp hd with h1 | h2
      · exact ih (n / b) (Nat.div_lt_self (by omega) hb) d h1
      · simp at h2
        subst h2
        exact Nat.mod_lt n (by omega)

theorem digitsOf_ne_nil (b n : ℕ) (hb : 2 ≤ b) : digitsOf b n ≠ [] := by
  by_cases h : n < b
  · rw [digitsOf_small b n h]; simp
  · rw [digitsOf_step b n hb (not_lt.mp h)]; simp

theorem natBytes_len1 (n : ℕ) (h : n < 10) : (natBytes n).length = 1 := by
  rw [natBytes, List.length_map, digitsOf_len1 10 n h]

theorem natBytes_len2 (n : ℕ) (h1 : 10 ≤ n) (h2 : n < 100) : (natBytes n).length = 2 := by
  rw [natBytes, List.length_map, digitsOf_len2 10 n (by norm_num) h1 (by omega)]

theorem natBytes_len3 (n : ℕ) (h1 : 100 ≤ n) (h2 : n < 1000) : (natBytes n).length = 3 := by
  rw [natBytes, List.length_map, digitsOf_len3 10 n (by norm_num) (by omega) (by omega)]

theorem natBytes_pos_lt (n : ℕ) : ∀ x ∈ natBytes n, 0 < x ∧ x < 256 := by
  intro x hx
  rw [natBytes] at hx
  obtain ⟨d, hd, rfl⟩ := List.mem_map.mp hx
  have := digitsOf_lt 10 (by norm_num) n d hd
  rw [digitByte]
  omega

theorem hexBytes_pos_lt (n : ℕ) : ∀ x ∈ hexBytes n, 0 < x ∧ x < 256 := by
  intro x hx
  rw [hexBytes] at hx
  obtain ⟨d, hd, rfl⟩ := List.mem_map.mp hx
  have := digitsOf_lt 16 (by norm_num) n d hd
  rw [hexDigitByte]
  split <;> omega

theorem hex2_len (n : ℕ) (h : n < 256) : (hex2 n).length = 2 := by
  rw [hex2, List.leftpad_length]
  by_cases h16 : n < 16
  · rw [hexBytes, List.length_map, digitsOf_len1 16 n h16]
    decide
  · rw [hexBytes, List.length_map, digitsOf_len2 16 n (by norm_num) (not_lt.mp h16) (by omega)]
    decide

theorem hex2_mem (n x : ℕ) (hx : x ∈ hex2 n) : 0 < x ∧ x < 256 := by
  rw [hex2, List.leftpad] at hx
  rcases List.mem_append.mp hx with h1 | h2
  · have := List.eq_of_mem_replicate h1
    omega
  · exact hexBytes_pos_lt n x h2

/-! ### The fixed 14-byte checksum window -/

theorem range_map_bufAt (s : List ℕ) (junk : ℕ → ℕ) :
    (List.range s.length).map (bufAt s junk) = s := by
  apply List.ext_getElem
  · simp
  · intro i h1 h2
    simp only [List.getElem_map, List.getElem_range]
    have hi : i < s.length := by simpa using h2
    simp only [bufAt, dif_pos hi]
    rfl

theorem crcOf_eq_xorBytes_window (h : ℚ) (junk : ℕ → ℕ) :
    crcOf h junk = xorBytes ((List.range 14).map (bufAt (innerBytes h) junk)) := by
  rw [crcOf, xorBytes, List.foldl_map]

theorem xorBytes_append_singleton (l : List ℕ) (a : ℕ) :
    xorBytes (l ++ [a]) = xorBytes l ^^^ a := by
  rw [xorBytes, xorBytes, List.foldl_append]
  rfl

theorem xorBytes_snoc_zero (l : List ℕ) : xorBytes (l ++ [0]) = xorBytes l := by
  rw [xorBytes_append_singleton, Nat.xor_zero]

/-- When the written inner string is exactly 13 bytes long, the 14-byte loop
XORs the 13 characters and the terminating NUL, so the checksum equals the
XOR of the inner field. -/
theorem crcOf_eq_xor_of_len13 (h : ℚ) (junk : ℕ → ℕ)
    (hlen : (innerBytes h).length = 13) : crcOf h junk = xorBytes (innerBytes h) := by
  rw [crcOf_eq_xorBytes_window]
  have h14 : (14 : ℕ) = (innerBytes h).length + 1 := by omega
  rw [h14, List.range_succ, List.map_append, range_map_bufAt]
  have hnul : bufAt (innerBytes h) junk (innerBytes h).length = 0 := by
    rw [bufAt]
    simp
  simp only [List.map_cons, List.map_nil, hnul]
  exact xorBytes_snoc_zero _

theorem xor_one_ne (x : ℕ) : x ^^^ 1 ≠ x := by
  intro heq
  have h2 : x ^^^ (x ^^^ 1) = x ^^^ x := by rw [heq]
  rw [← Nat.xor_assoc, Nat.xor_self, Nat.zero_xor] at h2
  simp at h2

/-- When the written inner string is shorter than 13 bytes, byte 13 of the
checksum window was never assigned by the program: the checksum changes when
that junk byte changes. -/
theorem crcOf_junk_dependent (h : ℚ) (hlen : (innerBytes h).length < 13) :
    crcOf h (fun i => if i = 13 then 1 else 0) ≠ crcOf h (fun _ => 0) := by
  have key : ∀ junk : ℕ → ℕ,
      crcOf h junk = xorBytes ((List.range 13).map (bufAt (innerBytes h) junk)) ^^^ junk 13 := by
    intro junk
    rw [crcOf_eq_xorBytes_window]
    have h14 : (14 : ℕ) = 13 + 1 := rfl
    rw [h14, List.range_succ, List.map_append, List.map_cons, List.map_nil,
      xorBytes_append_singleton]
    have h13 : bufAt (innerBytes h) junk 13 = junk 13 := by
      rw [bufAt, dif_neg (by omega)]
      rw [if_neg (by omega)]
    rw [h13]
  rw [key, key]
  have hmaps : (List.range 13).map (bufAt (innerBytes h) (fun i => if i = 13 then 1 else 0)) =
      (List.range 13).map (bufAt (innerBytes h) (fun _ => 0)) := by
    apply List.map_congr_left
    intro i hi
    have hi13 : i < 13 := List.mem_range.mp hi
    rw [bufAt, bufAt]
    split
    · rfl
    · split
      · rfl
      · rw [if_neg (by omega)]
  rw [hmaps]
  simp only [if_pos rfl]
  exact fun heq => xor_one_ne _ (by simpa using heq)

/-! ### Length of the formatted field -/

theorem fmt031_def (h : ℚ) :
    fmt031 h = List.leftpad 3 48 (natBytes ((⌊h * 10 + 1/2⌋).toNat / 10) ++
      46 :: natBytes ((⌊h * 10 + 1/2⌋).toNat % 10)) := rfl

theorem fmtPad_len (m : ℕ) :
    (List.leftpad 3 48 (natBytes (m / 10) ++ 46 :: natBytes (m % 10))).length =
      (digitsOf 10 (m / 10)).length + 2 := by
  rw [List.leftpad_length, List.length_append, List.length_cons,
    natBytes_len1 (m % 10) (Nat.mod_lt m (by norm_num))]
  have hpos : 0 < (digitsOf 10 (m / 10)).length :=
    List.length_pos.mpr (digitsOf_ne_nil 10 (m / 10) (by norm_num))
  rw [natBytes, List.length_map]
  omega

theorem innerBytes_len (h : ℚ) :
    (innerBytes h).length = (digitsOf 10 ((⌊h * 10 + 1/2⌋).toNat / 10)).length + 10 := by
  rw [innerBytes, fmt031_def, List.length_append, List.length_append, fmtPad_len]
  have h1 : (strBytes "HEHDT,").length = 6 := rfl
  have h2 : (strBytes ",T").length = 2 := rfl
  omega

theorem innerBytes_tenths_len (n : ℕ) :
    (innerBytes ((n:ℚ)/10)).length = (digitsOf 10 (n / 10)).length + 10 := by
  rw [innerBytes_len, floor_tenths]

theorem innerBytes_len13_of_large (n : ℕ) (h1 : 1000 ≤ n) (h2 : n < 10000) :
    (innerBytes ((n:ℚ)/10)).length = 13 := by
  rw [innerBytes_tenths_len, digitsOf_len3 10 (n / 10) (by norm_num) (by omega) (by omega)]

theorem innerBytes_len_lt_of_small (n : ℕ) (h : n < 1000) :
    (innerBytes ((n:ℚ)/10)).length < 13 := by
  rw [innerBytes_tenths_len]
  by_cases h10 : n / 10 < 10
  · rw [digitsOf_len1 10 (n / 10) h10]; omega
  · rw [digitsOf_len2 10 (n / 10) (by norm_num) (by omega) (by omega)]; omega

/-! ### Byte bounds and message shape -/

theorem xorBytes_lt (l : List ℕ) (hl : ∀ x ∈ l, x < 256) : xorBytes l < 256 := by
  rw [xorBytes]
  suffices hgen : ∀ c, c < 256 → l.foldl (fun c b => c ^^^ b) c < 256 from
    hgen 0 (by norm_num)
  induction l with
  | nil => intro c hc; exact hc
  | cons a t ih =>
    intro c hc
    have ha : a < 256 := hl a (by simp)
    exact ih (fun x hx => hl x (by simp [hx])) (c ^^^ a)
      (Nat.xor_lt_two_pow (n := 8) hc ha)

theorem innerBytes_mem (h : ℚ) : ∀ x ∈ innerBytes h, 0 < x ∧ x < 256 := by
  intro x hx
  rw [innerBytes] at hx
  rcases List.mem_append.mp hx with h12 | h3
  · rcases List.mem_append.mp h12 with h1 | h2
    · have hpre : strBytes "HEHDT," = [72, 69, 72, 68, 84, 44] := by decide
      rw [hpre] at h1
      simp only [List.mem_cons, List.not_mem_nil, or_false] at h1
      rcases h1 with rfl | rfl | rfl | rfl | rfl | rfl <;> norm_num
    · rw [fmt031_def, List.leftpad] at h2
      rcases List.mem_append.mp h2 with h4 | h5
      · have := List.eq_of_mem_replicate h4
        omega
      · rcases List.mem_append.mp h5 with h6 | h7
        · exact natBytes_pos_lt _ x h6
        · rcases List.mem_cons.mp h7 with rfl | h8
          · norm_num
          · exact natBytes_pos_lt _ x h8
  · have hsuf : strBytes ",T" = [44, 84] := by decide
    rw [hsuf] at h3
    simp only [List.mem_cons, List.not_mem_nil, or_false] at h3
    rcases h3 with rfl | rfl <;> norm_num

theorem crcOf_lt (h : ℚ) (junk : ℕ → ℕ) (hj : ∀ i, junk i < 256) :
    crcOf h junk < 256 := by
  rw [crcOf_eq_xorBytes_window]
  apply xorBytes_lt
  intro x hx
  obtain ⟨i, _, rfl⟩ := List.mem_map.mp hx
  rw [bufAt]
  split
  · exact (innerBytes_mem h _ (List.get_mem _ _ _)).2
  · split
    · norm_num
    · exact hj i

theorem messageBytes_mem (h : ℚ) (junk : ℕ → ℕ) :
    ∀ x ∈ messageBytes h junk, 0 < x ∧ x < 256 := by
  intro x hx
  rw [messageBytes] at hx
  rcases List.mem_append.mp hx with h12 | h3
  · rcases List.mem_append.mp h12 with h1 | h2
    · rcases List.mem_cons.mp h1 with rfl | h1b
      · norm_num
      · exact innerBytes_mem h x h1b
    · rcases List.mem_cons.mp h2 with rfl | h2b
      · norm_num
      · exact hex2_mem _ x h2b
  · simp only [List.mem_cons, List.not_mem_nil, or_false] at h3
    rcases h3 with rfl | rfl <;> norm_num

theorem messageBytes_len (h : ℚ) (junk : ℕ → ℕ) (hj : ∀ i, junk i < 256) :
    (messageBytes h junk).length = (innerBytes h).length + 6 := by
  rw [messageBytes]
  simp only [List.length_append, List.length_cons, List.length_nil]
  rw [hex2_len _ (crcOf_lt h junk hj)]

/-! ### `sendto` and `strlen` -/

/-- `strlen` scanning a buffer from index `i` with the given fuel (the
buffer `message` has 20 bytes). -/
def strlenFrom (buf : ℕ → ℕ) : ℕ → ℕ → ℕ
  | 0, i => i
  | fuel+1, i => if buf i = 0 then i else strlenFrom buf fuel (i + 1)

/-- Lines 141-142: the length argument `strlen(message)+1` of `sendto`. -/
def sentLen (h : ℚ) (junkI junkM : ℕ → ℕ) : ℕ :=
  strlenFrom (bufAt (messageBytes h junkI) junkM) 20 0 + 1

/-- Lines 141-142: the bytes the kernel reads from `message` — the first
`strlen(message)+1` bytes of the buffer. -/
def sentBytes (h : ℚ) (junkI junkM : ℕ → ℕ) : List ℕ :=
  (List.range (sentLen h junkI junkM)).map (bufAt (messageBytes h junkI) junkM)

theorem strlenFrom_spec (s : List ℕ) (junk : ℕ → ℕ) (hs : ∀ x ∈ s, x ≠ 0) :
    ∀ fuel i, i ≤ s.length → s.length - i < fuel →
      strlenFrom (bufAt s junk) fuel i = s.length := by
  intro fuel
  induction fuel with
  | zero => intro i h1 h2; omega
  | succ f ih =>
    intro i h1 h2
    rw [strlenFrom]
    by_cases hi : i = s.length
    · rw [if_pos]
      · exact hi
      · rw [bufAt, dif_neg (by omega), if_pos hi]
    · have hilt : i < s.length := by omega
      rw [if_neg, ih (i + 1) (by omega) (by omega)]
      rw [bufAt, dif_pos hilt]
      exact hs _ (List.get_mem s i hilt)

theorem digitsOf_len_le3 (m : ℕ) (hm : m < 1000) : (digitsOf 10 m).length ≤ 3 := by
  by_cases h1 : m < 10
  · rw [digitsOf_len1 10 m h1]; omega
  · by_cases h2 : m < 100
    · rw [digitsOf_len2 10 m (by norm_num) (by omega) (by omega)]; omega
    · rw [digitsOf_len3 10 m (by norm_num) (by omega) (by omega)]

theorem tenthsCount_le (h : ℚ) (hh1 : h < 360) : (⌊h * 10 + 1/2⌋).toNat ≤ 3600 := by
  have hle : h * 10 + 1/2 ≤ 3600 + (1:ℚ)/2 := by linarith
  have hfl : ⌊h * 10 + 1/2⌋ ≤ ⌊(3600 : ℚ) + 1/2⌋ := Int.floor_le_floor hle
  have hval : ⌊(3600 : ℚ) + 1/2⌋ = 3600 := by
    rw [Int.floor_eq_iff]
    norm_num
  omega

theorem innerBytes_len_le (h : ℚ) (hh1 : h < 360) : (innerBytes h).length ≤ 13 := by
  rw [innerBytes_len]
  have hm := tenthsCount_le h hh1
  have := digitsOf_len_le3 ((⌊h * 10 + 1/2⌋).toNat / 10) (by omega)
  omega

theorem sentLen_eq (h : ℚ) (junkI junkM : ℕ → ℕ) (hj : ∀ i, junkI i < 256)
    (hh1 : h < 360) : sentLen h junkI junkM = (messageBytes h junkI).length + 1 := by
  rw [sentLen, strlenFrom_spec (messageBytes h junkI) junkM
    (fun x hx => Nat.pos_iff_ne_zero.mp (messageBytes_mem h junkI x hx).1) 20 0
    (by omega) ?_]
  rw [messageBytes_len h junkI hj]
  have := innerBytes_len_le h hh1
  omega

theorem sentBytes_eq (h : ℚ) (junkI junkM : ℕ → ℕ) (hj : ∀ i, junkI i < 256)
    (hh1 : h < 360) : sentBytes h junkI junkM = messageBytes h junkI ++ [0] := by
  rw [sentBytes, sentLen_eq h junkI junkM hj hh1, List.range_succ, List.map_append,
    range_map_bufAt]
  have hnul : bufAt (messageBytes h junkI) junkM (messageBytes h junkI).length = 0 := by
    rw [bufAt]
    simp
  simp [hnul]

/-! ### The magnetometer-to-heading computation (line 109)

`heading = -atan2(-yField, xField)*(180/M_PI)`.  C `atan2(y, x)` is the
argument of the complex number `x + y*i`, with values in `(-π, π]`. -/

noncomputable def atan2 (y x : ℝ) : ℝ := Complex.arg ⟨x, y⟩

/-- Line 109 exactly: `-atan2(-yField, xField)*(180/M_PI)`. -/
noncomputable def headingOfMag (xField yField : ℝ) : ℝ :=
  -atan2 (-yField) xField * (180 / Real.pi)

/-! ### The main loop as an event trace

The loop body (lines 102-146) is modelled as one `tick`.  The
magnetometer-to-heading computation is a parameter `hdgFn` of the loop model
(it is a transcendental real computation, settled separately); every theorem
about the loop holds for every `hdgFn`.  The environment of a tick supplies
what the outside world does: whether the driver delivered fresh mag data
(the code never checks `rc_mpu_read_mag`'s return value), whether each
`sendto` succeeds (the code never checks those either), and the junk bytes
beyond the strings `sprintf` wrote into the two stack buffers. -/

structure TickEnv where
  readOk : Bool
  magX : ℚ
  magY : ℚ
  send1Ok : Bool
  send2Ok : Bool
  junkI : ℕ → ℕ
  junkM : ℕ → ℕ

/-- Observable actions of the program, in program order.  `log` is in the
vocabulary so that the absence of any logging/recording in the loop body is
expressible; the loop body of the C program contains no output call, so the
model never emits it (the only prints in the program are at startup and for
fatal initialization errors, outside the loop). -/
inductive Event where
  | readMag (ok : Bool)
  | send (dest : ℕ) (payload : List ℕ) (len : ℕ) (ok : Bool)
  | log (msg : List ℕ)
  | sleep
  | powerOff
  | closeSock (dest : ℕ)
  deriving DecidableEq

/-- Whether an event is a `sendto` call. -/
def isSend : Event → Bool
  | Event.send _ _ _ _ => true
  | _ => false

/-- Whether an event records/logs anything. -/
def isLog : Event → Bool
  | Event.log _ => true
  | _ => false

/-- Lines 104-106: the mag fields held in `data` after `rc_mpu_read_mag`.
On a failed read the struct keeps its previous contents (the return value is
not inspected, so the stale values are used as if fresh). -/
def tickData (st : ℚ × ℚ) (env : TickEnv) : ℚ × ℚ :=
  if env.readOk then (env.magX, env.magY) else st

/-- One iteration of the `while (running)` loop (lines 102-146): read mag,
compute and correct the heading, build the sentence, send it to both
destinations, sleep. -/
def tickEvents (hdgFn : ℚ → ℚ → ℚ) (st : ℚ × ℚ) (env : TickEnv) : List Event :=
  let d := tickData st env
  let heading := correct (hdgFn d.1 d.2) BOARD_INVERTED HEADING_OFFSET
    LOCAL_MAGNETIC_DECLINATION
  [Event.readMag env.readOk,
   Event.send 1 (sentBytes heading env.junkI env.junkM)
     (sentLen heading env.junkI env.junkM) env.send1Ok,
   Event.send 2 (sentBytes heading env.junkI env.junkM)
     (sentLen heading env.junkI env.junkM) env.send2Ok,
   Event.sleep]

/-- Lines 149-151: `rc_mpu_power_off(); close(socket1); close(socket2);`. -/
def cleanupEvents : List Event :=
  [Event.powerOff, Event.closeSock 1, Event.closeSock 2]

/-- The `while (running)` loop followed by the cleanup code.  `sig i = true`
means the SIGINT handler has already set `running = 0` when iteration `i`
tests the loop condition (a signal arriving strictly inside iteration `j`
gives `sig j = false` and `sig (j+1) = true`: the body never re-tests
`running`, so iteration `j` still runs to completion).  The fuel bounds the
number of iterations modelled; any fuel exceeding the first signalled index
yields the same trace. -/
def runFrom (hdgFn : ℚ → ℚ → ℚ) (sig : ℕ → Bool) (envs : ℕ → TickEnv) :
    ℕ → ℕ → ℚ × ℚ → List Event
  | 0, _, _ => []
  | fuel+1, i, st =>
    if sig i then cleanupEvents
    else tickEvents hdgFn st (envs i) ++
      runFrom hdgFn sig envs fuel (i + 1) (tickData st (envs i))

/-- The concatenated events of ticks `i, i+1, ..., i+k-1`. -/
def ticksTrace (hdgFn : ℚ → ℚ → ℚ) (envs : ℕ → TickEnv) :
    ℕ → ℕ → ℚ × ℚ → List Event
  | 0, _, _ => []
  | k+1, i, st =>
    tickEvents hdgFn st (envs i) ++
      ticksTrace hdgFn envs k (i + 1) (tickData st (envs i))

/-! ### Claims -/

theorem fmt031_tenths_nopad (n : ℕ) (h1 : 1000 ≤ n) (h2 : n < 10000) :
    fmt031 ((n:ℚ)/10) = natBytes (n / 10) ++ 46 :: natBytes (n % 10) := by
  rw [fmt031_tenths, List.leftpad]
  have hlen : (natBytes (n / 10) ++ 46 :: natBytes (n % 10)).length = 5 := by
    rw [List.length_append, natBytes_len3 (n / 10) (by omega) (by omega),
      List.length_cons, natBytes_len1 (n % 10) (by omega)]
  rw [hlen]
  simp

/-- C2: for every input heading and all configuration offsets, the
add-360-while-negative / subtract-360-while-≥360 reduction inside `correct`
returns the unique value congruent to its input modulo 360 lying in
`[0, 360)`; an intermediate value of exactly 360 normalizes to 0. -/
theorem c2_normalization :
    (∀ (h offset decl : ℚ) (inverted : Bool),
      0 ≤ correct h inverted offset decl ∧ correct h inverted offset decl < 360 ∧
      (∃ k : ℤ, correct h inverted offset decl =
        preCorrect h inverted offset decl + 360 * k) ∧
      (∀ y : ℚ, 0 ≤ y → y < 360 →
        (∃ k : ℤ, y = preCorrect h inverted offset decl + 360 * k) →
        y = correct h inverted offset decl)) ∧
    normalize 360 = 0 := by
  constructor
  · intro h offset decl inverted
    exact ⟨normalize_nonneg _, normalize_lt _, normalize_congr _,
      fun y h0 hl hc => normalize_unique _ y h0 hl hc⟩
  · have h1 : addLoop 360 = 360 := addLoop_of_nonneg 360 (by norm_num)
    rw [normalize, h1, subLoop, dif_pos (le_refl (360:ℚ))]
    have h2 : (360:ℚ) - 360 = 0 := by norm_num
    rw [h2, subLoop_of_lt 0 (by norm_num)]

/-- C2 witness: a cumulative offset of 1080 = 3·360 normalizes to 0 —
instantiating the uniqueness clause at the concrete residue 0. -/
theorem c2_normalization_witness :
    correct 0 false 1080 0 = 0 ∧ 0 ≤ correct 0 false 1080 0 ∧
      correct 0 false 1080 0 < 360 := by
  obtain ⟨hmain, -⟩ := c2_normalization
  obtain ⟨h0, h1, -, huniq⟩ := hmain 0 1080 0 false
  refine ⟨?_, h0, h1⟩
  refine (huniq 0 le_rfl (by norm_num) ⟨-3, ?_⟩).symm
  rw [preCorrect]
  push_cast
  norm_num

/-- C7: the wraparound reduction is the identity on `[0, 360)` and therefore
idempotent. -/
theorem c7_idempotent :
    (∀ h : ℚ, 0 ≤ h → h < 360 → normalize h = h) ∧
    (∀ h : ℚ, normalize (normalize h) = normalize h) :=
  ⟨fun h h0 hl => normalize_of_mem h h0 hl,
   fun h => normalize_of_mem _ (normalize_nonneg h) (normalize_lt h)⟩

/-- C7 witness: concrete instances of both clauses. -/
theorem c7_idempotent_witness :
    normalize (normalize (-500)) = normalize (-500) ∧ normalize 90 = 90 :=
  ⟨c7_idempotent.2 (-500), c7_idempotent.1 90 (by norm_num) (by norm_num)⟩

/-- C10: the checksum loop always XORs exactly 14 buffer bytes.  For
headings in `[100, 360)` (given in exact tenths `n`) the inner field is
exactly 13 characters, the 14th byte is the NUL terminator, and the
transmitted checksum equals the XOR of the 13 inner-field characters; for
headings below 100 the formatted string is shorter than 13 characters and
the loop XORs buffer bytes beyond the NUL terminator that the program never
assigned — the checksum depends on those junk bytes. -/
theorem c10_checksum_window :
    (∀ (n : ℕ) (junk : ℕ → ℕ), 1000 ≤ n → n < 3600 →
      (innerBytes ((n:ℚ)/10)).length = 13 ∧
      crcOf ((n:ℚ)/10) junk = xorBytes (innerBytes ((n:ℚ)/10))) ∧
    (∀ n : ℕ, n < 1000 →
      (innerBytes ((n:ℚ)/10)).length < 13 ∧
      crcOf ((n:ℚ)/10) (fun i => if i = 13 then 1 else 0) ≠
        crcOf ((n:ℚ)/10) (fun _ => 0)) := by
  constructor
  · intro n junk h1 h2
    have hlen := innerBytes_len13_of_large n h1 (by omega)
    exact ⟨hlen, crcOf_eq_xor_of_len13 _ junk hlen⟩
  · intro n hsmall
    have hlen := innerBytes_len_lt_of_small n hsmall
    exact ⟨hlen, crcOf_junk_dependent _ hlen⟩

/-- C10 witness: concrete instances at headings 234.5 and 34.5. -/
theorem c10_checksum_window_witness :
    ((innerBytes ((2345:ℕ)/10 : ℚ)).length = 13 ∧
      crcOf ((2345:ℕ)/10 : ℚ) (fun _ => 0) = xorBytes (innerBytes ((2345:ℕ)/10 : ℚ))) ∧
    ((innerBytes ((345:ℕ)/10 : ℚ)).length < 13 ∧
      crcOf ((345:ℕ)/10 : ℚ) (fun i => if i = 13 then 1 else 0) ≠
        crcOf ((345:ℕ)/10 : ℚ) (fun _ => 0)) := by
  obtain ⟨hA, hB⟩ := c10_checksum_window
  exact ⟨hA 2345 (fun _ => 0) (by norm_num) (by norm_num), hB 345 (by norm_num)⟩

/-- C3 (code bug): at corrected heading 34.5 the inner field written is
`HEHDT,34.5,T` (12 characters), but the transmitted checksum XORs 14 fixed
buffer bytes; if the unassigned buffer byte at index 13 is 1, the
transmitted checksum differs from the XOR of the inner field, contradicting
the claimed equality for every heading in `[0, 360)`. -/
theorem c3_checksum_bug :
    innerBytes ((345:ℕ)/10 : ℚ) = strBytes "HEHDT,34.5,T" ∧
    crcOf ((345:ℕ)/10 : ℚ) (fun i => if i = 13 then 1 else 0) ≠
      xorBytes (strBytes "HEHDT,34.5,T") := by
  constructor
  · simp only [innerBytes, fmt031_tenths]
    decide
  · simp only [crcOf, innerBytes, fmt031_tenths]
    decide

/-- C1 (counterexample): at corrected heading 34.5 the produced sentence is
NOT `$GPHDT,034.5,T*<xor of GPHDT,034.5,T>\x0d\n` — the talker is the
hardcoded `HE` and `%03.1f` does not zero-pad 34.5 to three integer digits:
it formats it as `34.5`. -/
theorem c1_counterexample :
    messageBytes ((345:ℕ)/10 : ℚ) (fun _ => 0) ≠
      strBytes "$GPHDT,034.5,T*" ++ hex2 (xorBytes (strBytes "GPHDT,034.5,T")) ++ [13, 10] ∧
    fmt031 ((345:ℕ)/10 : ℚ) = strBytes "34.5" := by
  constructor
  · simp only [messageBytes, crcOf, innerBytes, fmt031_tenths]
    decide
  · rw [fmt031_tenths]
    decide

/-- C1 (amended): the talker ID is the hardcoded `HE` and `%03.1f` pads to a
minimum TOTAL width of 3, so only for one-decimal headings `n/10` with
`100 ≤ n/10 < 360` is the inner field the fixed-width `HEHDT,<ddd.d>,T`
(13 characters, one decimal digit) and the sentence exactly
`$HEHDT,<ddd.d>,T*<XOR of the inner field as two uppercase hex digits>\x0d\n`. -/
theorem c1_sentence_format (n : ℕ) (junk : ℕ → ℕ) (h1 : 1000 ≤ n) (h2 : n < 3600) :
    messageBytes ((n:ℚ)/10) junk =
      36 :: innerBytes ((n:ℚ)/10) ++ 42 :: hex2 (xorBytes (innerBytes ((n:ℚ)/10))) ++ [13, 10] ∧
    innerBytes ((n:ℚ)/10) =
      strBytes "HEHDT," ++ (natBytes (n / 10) ++ 46 :: natBytes (n % 10)) ++ strBytes ",T" ∧
    (innerBytes ((n:ℚ)/10)).length = 13 := by
  have hlen := innerBytes_len13_of_large n h1 (by omega)
  refine ⟨?_, ?_, hlen⟩
  · rw [messageBytes, crcOf_eq_xor_of_len13 _ junk hlen]
  · rw [innerBytes, fmt031_tenths_nopad n h1 (by omega)]

/-- C1 witness: the fully evaluated sentence at heading 234.5. -/
theorem c1_sentence_format_witness :
    messageBytes ((2345:ℕ)/10 : ℚ) (fun _ => 0) = strBytes "$HEHDT,234.5,T*2F\r\n" := by
  obtain ⟨hmsg, -, -⟩ := c1_sentence_format 2345 (fun _ => 0) (by norm_num) (by norm_num)
  rw [hmsg]
  simp only [innerBytes, fmt031_tenths]
  decide

/-- C4 (counterexample): on a tick whose sensor read fails, the loop still
sends two datagrams — the claim that no datagram is sent for that period is
false. -/
theorem c4_counterexample :
    ((tickEvents (fun _ _ => 0) (1, 0)
      ⟨false, 0, 0, true, true, fun _ => 0, fun _ => 0⟩).filter isSend).length = 2 := rfl

/-- C4 (amended): the return value of `rc_mpu_read_mag` is never inspected:
on a failed read the tick is NOT skipped — the mag data stays stale
(`tickData st env = st`), a sentence computed from the stale data is encoded
and sent to both destinations, and the loop continues (the sleep still
happens). -/
theorem c4_read_failure (hdgFn : ℚ → ℚ → ℚ) (st : ℚ × ℚ) (env : TickEnv)
    (hfail : env.readOk = false) :
    tickData st env = st ∧
    tickEvents hdgFn st env =
      [Event.readMag false,
       Event.send 1
         (sentBytes (correct (hdgFn st.1 st.2) BOARD_INVERTED HEADING_OFFSET
           LOCAL_MAGNETIC_DECLINATION) env.junkI env.junkM)
         (sentLen (correct (hdgFn st.1 st.2) BOARD_INVERTED HEADING_OFFSET
           LOCAL_MAGNETIC_DECLINATION) env.junkI env.junkM) env.send1Ok,
       Event.send 2
         (sentBytes (correct (hdgFn st.1 st.2) BOARD_INVERTED HEADING_OFFSET
           LOCAL_MAGNETIC_DECLINATION) env.junkI env.junkM)
         (sentLen (correct (hdgFn st.1 st.2) BOARD_INVERTED HEADING_OFFSET
           LOCAL_MAGNETIC_DECLINATION) env.junkI env.junkM) env.send2Ok,
       Event.sleep] := by
  have hd : tickData st env = st := by rw [tickData, hfail]; rfl
  refine ⟨hd, ?_⟩
  rw [tickEvents, hd, hfail]

/-- C4 witness: the amended behaviour at a concrete failed-read tick. -/
theorem c4_read_failure_witness :
    tickData (1, 0) ⟨false, 5, 7, true, true, fun _ => 0, fun _ => 0⟩ = (1, 0) ∧
    tickEvents (fun _ _ => 0) (1, 0) ⟨false, 5, 7, true, true, fun _ => 0, fun _ => 0⟩ =
      [Event.readMag false,
       Event.send 1
         (sentBytes (correct 0 BOARD_INVERTED HEADING_OFFSET LOCAL_MAGNETIC_DECLINATION)
           (fun _ => 0) (fun _ => 0))
         (sentLen (correct 0 BOARD_INVERTED HEADING_OFFSET LOCAL_MAGNETIC_DECLINATION)
           (fun _ => 0) (fun _ => 0)) true,
       Event.send 2
         (sentBytes (correct 0 BOARD_INVERTED HEADING_OFFSET LOCAL_MAGNETIC_DECLINATION)
           (fun _ => 0) (fun _ => 0))
         (sentLen (correct 0 BOARD_INVERTED HEADING_OFFSET LOCAL_MAGNETIC_DECLINATION)
           (fun _ => 0) (fun _ => 0)) true,
       Event.sleep] :=
  c4_read_failure (fun _ _ => 0) (1, 0) ⟨false, 5, 7, true, true, fun _ => 0, fun _ => 0⟩ rfl

/-- C6 (counterexample): on a tick where the send to destination 1 fails,
nothing is recorded or logged — the loop body contains no logging call at
all (while both send attempts do still happen). -/
theorem c6_counterexample :
    ((tickEvents (fun _ _ => 0) (0, 0)
      ⟨true, 1, 0, false, true, fun _ => 0, fun _ => 0⟩).filter isLog) = [] ∧
    ((tickEvents (fun _ _ => 0) (0, 0)
      ⟨true, 1, 0, false, true, fun _ => 0, fun _ => 0⟩).filter isSend).length = 2 :=
  ⟨rfl, rfl⟩

/-- C6 (amended): send results are ignored, not logged: whatever each
`sendto` returns, the tick performs exactly one send attempt per destination
with identical sentence bytes and identical length, emits no log/record
event, and the state carried to future ticks does not depend on the send
results. -/
theorem c6_send_isolation (hdgFn : ℚ → ℚ → ℚ) (st : ℚ × ℚ) (env : TickEnv) (b c : Bool) :
    tickEvents hdgFn st { env with send1Ok := b, send2Ok := c } =
      [Event.readMag env.readOk,
       Event.send 1
         (sentBytes (correct (hdgFn (tickData st env).1 (tickData st env).2)
           BOARD_INVERTED HEADING_OFFSET LOCAL_MAGNETIC_DECLINATION) env.junkI env.junkM)
         (sentLen (correct (hdgFn (tickData st env).1 (tickData st env).2)
           BOARD_INVERTED HEADING_OFFSET LOCAL_MAGNETIC_DECLINATION) env.junkI env.junkM) b,
       Event.send 2
         (sentBytes (correct (hdgFn (tickData st env).1 (tickData st env).2)
           BOARD_INVERTED HEADING_OFFSET LOCAL_MAGNETIC_DECLINATION) env.junkI env.junkM)
         (sentLen (correct (hdgFn (tickData st env).1 (tickData st env).2)
           BOARD_INVERTED HEADING_OFFSET LOCAL_MAGNETIC_DECLINATION) env.junkI env.junkM) c,
       Event.sleep] ∧
    tickData st { env with send1Ok := b, send2Ok := c } = tickData st env ∧
    (tickEvents hdgFn st { env with send1Ok := b, send2Ok := c }).filter isLog = [] := by
  have hd : tickData st { env with send1Ok := b, send2Ok := c } = tickData st env := by
    rw [tickData, tickData]
  refine ⟨?_, hd, ?_⟩
  · rw [tickEvents, hd]
  · rw [tickEvents]
    rfl

/-- C8: on every tick, the length argument handed to `sendto` for each
destination equals the byte length of the NMEA sentence (with its trailing
`\x0d\n`) plus one, and the payload read from the buffer is exactly the
sentence bytes followed by one null byte. -/
theorem tickEvents_eq (hdgFn : ℚ → ℚ → ℚ) (st : ℚ × ℚ) (env : TickEnv) :
    tickEvents hdgFn st env =
      [Event.readMag env.readOk,
       Event.send 1
         (sentBytes (correct (hdgFn (tickData st env).1 (tickData st env).2)
           BOARD_INVERTED HEADING_OFFSET LOCAL_MAGNETIC_DECLINATION) env.junkI env.junkM)
         (sentLen (correct (hdgFn (tickData st env).1 (tickData st env).2)
           BOARD_INVERTED HEADING_OFFSET LOCAL_MAGNETIC_DECLINATION) env.junkI env.junkM)
         env.send1Ok,
       Event.send 2
         (sentBytes (correct (hdgFn (tickData st env).1 (tickData st env).2)
           BOARD_INVERTED HEADING_OFFSET LOCAL_MAGNETIC_DECLINATION) env.junkI env.junkM)
         (sentLen (correct (hdgFn (tickData st env).1 (tickData st env).2)
           BOARD_INVERTED HEADING_OFFSET LOCAL_MAGNETIC_DECLINATION) env.junkI env.junkM)
         env.send2Ok,
       Event.sleep] := rfl

theorem send_mem_tick (r : Bool) (P : List ℕ) (L : ℕ) (o1 o2 : Bool)
    (d : ℕ) (p : List ℕ) (l : ℕ) (ok : Bool)
    (hmem : Event.send d p l ok ∈
      [Event.readMag r, Event.send 1 P L o1, Event.send 2 P L o2, Event.sleep]) :
    p = P ∧ l = L := by
  simp only [List.mem_cons, List.not_mem_nil, or_false] at hmem
  rcases hmem with h | h | h | h
  · exact absurd h (by simp)
  · injection h with h1 h2 h3 h4
    exact ⟨h2, h3⟩
  · injection h with h1 h2 h3 h4
    exact ⟨h2, h3⟩
  · exact absurd h (by simp)

set_option maxHeartbeats 2000000 in
theorem c8_payload (hdgFn : ℚ → ℚ → ℚ) (st : ℚ × ℚ) (env : TickEnv)
    (hj : ∀ i, env.junkI i < 256) :
    ∀ d p l ok, Event.send d p l ok ∈ tickEvents hdgFn st env →
      p = messageBytes (correct (hdgFn (tickData st env).1 (tickData st env).2)
            BOARD_INVERTED HEADING_OFFSET LOCAL_MAGNETIC_DECLINATION) env.junkI ++ [0] ∧
      l = (messageBytes (correct (hdgFn (tickData st env).1 (tickData st env).2)
            BOARD_INVERTED HEADING_OFFSET LOCAL_MAGNETIC_DECLINATION) env.junkI).length + 1 := by
  intro d p l ok hmem
  have hlt : correct (hdgFn (tickData st env).1 (tickData st env).2)
      BOARD_INVERTED HEADING_OFFSET LOCAL_MAGNETIC_DECLINATION < 360 := normalize_lt _
  rw [tickEvents_eq] at hmem
  obtain ⟨hp, hl⟩ := send_mem_tick _ _ _ _ _ _ _ _ _ hmem
  subst hp
  subst hl
  exact ⟨sentBytes_eq _ _ _ hj hlt, sentLen_eq _ _ _ hj hlt⟩

/-- C8 witness: the payload/length relation at a concrete tick. -/
theorem c8_payload_witness :
    sentBytes (correct 0 BOARD_INVERTED HEADING_OFFSET LOCAL_MAGNETIC_DECLINATION)
        (fun _ => 0) (fun _ => 0) =
      messageBytes (correct 0 BOARD_INVERTED HEADING_OFFSET LOCAL_MAGNETIC_DECLINATION)
        (fun _ => 0) ++ [0] ∧
    sentLen (correct 0 BOARD_INVERTED HEADING_OFFSET LOCAL_MAGNETIC_DECLINATION)
        (fun _ => 0) (fun _ => 0) =
      (messageBytes (correct 0 BOARD_INVERTED HEADING_OFFSET LOCAL_MAGNETIC_DECLINATION)
        (fun _ => 0)).length + 1 := by
  have h := c8_payload (fun _ _ => 0) (0, 0)
    ⟨true, 0, 0, true, true, fun _ => 0, fun _ => 0⟩ (fun i => by norm_num) 1
    (sentBytes (correct 0 BOARD_INVERTED HEADING_OFFSET LOCAL_MAGNETIC_DECLINATION)
      (fun _ => 0) (fun _ => 0))
    (sentLen (correct 0 BOARD_INVERTED HEADING_OFFSET LOCAL_MAGNETIC_DECLINATION)
      (fun _ => 0) (fun _ => 0)) true (by rw [tickEvents_eq]; simp [tickData])
  exact h

theorem conj_mk (x y : ℝ) : (starRingEnd ℂ) ⟨x, y⟩ = (⟨x, -y⟩ : ℂ) := by
  apply Complex.ext
  · simp
  · simp

/-- C5 (counterexample): at `forward = 0, starboard = -1` the heading handed
to the correction chain by line 109 is `-90`, while
`atan2(-starboard, forward)` converted from radians to degrees is `+90`:
the claim omits the outer negation of line 109. -/
theorem c5_counterexample :
    headingOfMag 0 (-1) = -90 ∧ atan2 (-(-1)) 0 * (180 / Real.pi) = 90 := by
  have hI : ((⟨0, 1⟩ : ℂ)) = Complex.I := by
    apply Complex.ext <;> simp
  have harg : atan2 (-(-1)) 0 = Real.pi / 2 := by
    rw [atan2]
    norm_num
    rw [hI, Complex.arg_I]
  have hpi := Real.pi_ne_zero
  constructor
  · rw [headingOfMag, harg]
    field_simp
    ring
  · rw [harg]
    field_simp
    ring

/-- C5 (amended): line 109 computes `-atan2(-starboard, forward)·(180/π)`;
except on the negative `forward` half-axis (where `atan2` jumps between `π`
and `-π`), this equals `atan2(starboard, forward)` converted from radians to
degrees. -/
theorem c5_heading_formula (x y : ℝ) (hxy : ¬(y = 0 ∧ x < 0)) :
    headingOfMag x y = atan2 y x * (180 / Real.pi) := by
  rw [headingOfMag, atan2, atan2]
  have hconj : ((⟨x, -y⟩ : ℂ)) = (starRingEnd ℂ) ⟨x, y⟩ := (conj_mk x y).symm
  have hnotpi : Complex.arg ⟨x, y⟩ ≠ Real.pi := by
    intro hpi
    rcases Complex.arg_eq_pi_iff.mp hpi with ⟨hre, him⟩
    exact hxy ⟨him, hre⟩
  rw [hconj, Complex.arg_conj, if_neg hnotpi]
  ring

/-- C5 witness: the amended formula evaluated at `forward = 0,
starboard = -1`, where the code's heading is `-90` degrees. -/
theorem c5_heading_formula_witness :
    headingOfMag 0 (-1) = atan2 (-1) 0 * (180 / Real.pi) ∧
      atan2 (-1) 0 * (180 / Real.pi) = -90 := by
  refine ⟨c5_heading_formula 0 (-1) (by norm_num), ?_⟩
  have hI : ((⟨0, -1⟩ : ℂ)) = -Complex.I := by
    apply Complex.ext <;> simp
  have harg : atan2 (-1) 0 = -(Real.pi / 2) := by
    rw [atan2, hI, Complex.arg_neg_I]
  rw [harg]
  have hpi := Real.pi_ne_zero
  field_simp
  ring

/-! ### Shutdown ordering -/

theorem runFrom_until_sig (hdgFn : ℚ → ℚ → ℚ) (sig : ℕ → Bool) (envs : ℕ → TickEnv) :
    ∀ k fuel i st, (∀ j, j < k → sig (i + j) = false) → sig (i + k) = true → k < fuel →
      runFrom hdgFn sig envs fuel i st = ticksTrace hdgFn envs k i st ++ cleanupEvents := by
  intro k
  induction k with
  | zero =>
    intro fuel i st hpre hsig hcap
    match fuel, hcap with
    | fuel + 1, _ =>
      rw [runFrom, if_pos (by simpa using hsig), ticksTrace, List.nil_append]
  | succ k ih =>
    intro fuel i st hpre hsig hcap
    match fuel, hcap with
    | fuel + 1, hcap =>
      have hi : sig i = false := by simpa using hpre 0 (by omega)
      rw [runFrom, if_neg (by simp [hi]), ticksTrace, List.append_assoc]
      congr 1
      rw [ih fuel (i + 1) (tickData st (envs i))
        (fun j hj => by simpa [Nat.add_assoc, Nat.add_comm 1 j] using hpre (j + 1) (by omega))
        (by simpa [Nat.add_assoc, Nat.add_comm 1 k] using hsig) (by omega)]

theorem powerOff_not_mem_tick (hdgFn : ℚ → ℚ → ℚ) (st : ℚ × ℚ) (env : TickEnv) :
    Event.powerOff ∉ tickEvents hdgFn st env := by
  rw [tickEvents_eq]
  simp

theorem powerOff_not_mem_ticksTrace (hdgFn : ℚ → ℚ → ℚ) (envs : ℕ → TickEnv) :
    ∀ k i st, Event.powerOff ∉ ticksTrace hdgFn envs k i st := by
  intro k
  induction k with
  | zero => intro i st; rw [ticksTrace]; simp
  | succ k ih =>
    intro i st hmem
    rw [ticksTrace] at hmem
    rcases List.mem_append.mp hmem with h1 | h2
    · exact powerOff_not_mem_tick hdgFn st (envs i) h1
    · exact ih (i + 1) (tickData st (envs i)) h2

theorem split_at_unique (a : Event) :
    ∀ (T l1 l2 R : List Event), T ++ a :: R = l1 ++ a :: l2 → a ∉ T → a ∉ l1 → l2 = R := by
  intro T
  induction T with
  | nil =>
    intro l1 l2 R heq hT hl1
    match l1, heq with
    | [], heq =>
      simpa using heq.symm
    | x :: t, heq =>
      exfalso
      apply hl1
      have hx : a = x := by simpa using congrArg (fun l => l.head?) heq
      simp [hx]
  | cons x T ih =>
    intro l1 l2 R heq hT hl1
    match l1, heq with
    | [], heq =>
      exfalso
      apply hT
      have hx : x = a := by simpa using congrArg (fun l => l.head?) heq
      simp [hx]
    | y :: t, heq =>
      have hxy : x = y ∧ T ++ a :: R = t ++ a :: l2 := by
        constructor
        · simpa using congrArg (fun l => l.head?) heq
        · simpa using congrArg (fun l => l.tail) heq
      exact ih t l2 R hxy.2 (fun hm => hT (by simp [hm])) (fun hm => hl1 (by simp [hm]))

theorem count_not_mem_of_split (a : Event) (T R l1 l2 : List Event)
    (heq : T ++ a :: R = l1 ++ a :: l2) (hT : a ∉ T) (hR : a ∉ R) : a ∉ l1 := by
  intro hmem
  have hc := congrArg (List.count a) heq
  rw [List.count_append, List.count_append, List.count_cons_self, List.count_cons_self,
    List.count_eq_zero.mpr hT, List.count_eq_zero.mpr hR] at hc
  have hpos : 0 < List.count a l1 := List.count_pos_iff.mpr hmem
  omega

/-- C9: once the SIGINT handler has set `running = 0`, no new tick begins:
every tick that started before the first signalled loop test runs to
completion, the loop exits at the next test, and only then do the sensor
power-off and the two socket closes happen; after the `powerOff` event no
send event ever occurs. -/
theorem c9_shutdown (hdgFn : ℚ → ℚ → ℚ) (sig : ℕ → Bool) (envs : ℕ → TickEnv)
    (fuel N : ℕ) (st : ℚ × ℚ) (hN : sig N = true) (hfuel : N < fuel) :
    ∃ k, k ≤ N ∧ (∀ j, j < k → sig j = false) ∧ sig k = true ∧
      runFrom hdgFn sig envs fuel 0 st = ticksTrace hdgFn envs k 0 st ++ cleanupEvents ∧
      (∀ l1 l2, runFrom hdgFn sig envs fuel 0 st = l1 ++ Event.powerOff :: l2 →
        ∀ d p n ok, Event.send d p n ok ∉ l2) := by
  have hex : ∃ k, sig k = true := ⟨N, hN⟩
  set k := Nat.find hex with hk
  have hkN : k ≤ N := Nat.find_min' hex hN
  have hksig : sig k = true := Nat.find_spec hex
  have hkpre : ∀ j, j < k → sig j = false := by
    intro j hj
    have := Nat.find_min hex hj
    simpa using this
  have htrace : runFrom hdgFn sig envs fuel 0 st =
      ticksTrace hdgFn envs k 0 st ++ cleanupEvents := by
    apply runFrom_until_sig hdgFn sig envs k fuel 0 st
    · intro j hj
      simpa using hkpre j hj
    · simpa using hksig
    · omega
  refine ⟨k, hkN, hkpre, hksig, htrace, ?_⟩
  intro l1 l2 heq d p n ok hmem
  have hshape : ticksTrace hdgFn envs k 0 st ++
      Event.powerOff :: [Event.closeSock 1, Event.closeSock 2] = l1 ++ Event.powerOff :: l2 := by
    rw [← heq, htrace]
    rfl
  have hT : Event.powerOff ∉ ticksTrace hdgFn envs k 0 st :=
    powerOff_not_mem_ticksTrace hdgFn envs k 0 st
  have hR : Event.powerOff ∉ [Event.closeSock 1, Event.closeSock 2] := by simp
  have hl1 : Event.powerOff ∉ l1 := count_not_mem_of_split _ _ _ _ _ hshape hT hR
  have hl2 : l2 = [Event.closeSock 1, Event.closeSock 2] :=
    split_at_unique _ _ _ _ _ hshape hT hl1
  rw [hl2] at hmem
  simp at hmem

/-- C9 witness: a concrete run of 3 fuel steps where the signal arrives
during tick 0. -/
theorem c9_shutdown_witness :
    ∃ k, k ≤ 1 ∧ (∀ j, j < k → (fun i => decide (1 ≤ i)) j = false) ∧
      (fun i => decide (1 ≤ i)) k = true ∧
      runFrom (fun _ _ => 0) (fun i => decide (1 ≤ i))
          (fun _ => ⟨true, 1, 0, true, true, fun _ => 0, fun _ => 0⟩) 3 0 (0, 0) =
        ticksTrace (fun _ _ => 0)
          (fun _ => ⟨true, 1, 0, true, true, fun _ => 0, fun _ => 0⟩) k 0 (0, 0) ++
          cleanupEvents ∧
      (∀ l1 l2, runFrom (fun _ _ => 0) (fun i => decide (1 ≤ i))
          (fun _ => ⟨true, 1, 0, true, true, fun _ => 0, fun _ => 0⟩) 3 0 (0, 0) =
            l1 ++ Event.powerOff :: l2 →
        ∀ d p n ok, Event.send d p n ok ∉ l2) :=
  c9_shutdown (fun _ _ => 0) (fun i => decide (1 ≤ i))
    (fun _ => ⟨true, 1, 0, true, true, fun _ => 0, fun _ => 0⟩) 3 1 (0, 0) (by decide)
    (by omega)

end HeadingSender
